import Mathlib

/-!
Shallow embedding of `src/main.py` (in-memory message broker): the data model
(`Message`, `Channel`, `Storage`), the queue-engine operations of `Storage`,
and the request router (`Broker`).  Python `dict` / `collections.OrderedDict`
values are embedded as insertion-ordered association lists (`List (α × β)`)
with update-in-place insertion (`odInsert`), first-item pop
(`popitem(last=False)` = head of the list) and keyed pop (`odPop`).
Message ids (`str(uuid4())` generated by a `default_factory` at message
construction) are embedded as natural numbers drawn from a monotone counter
`Storage.nextId`: each generated id is distinct from every id generated
before, which is exactly the collision-freeness the uuid scheme provides.
-/

namespace EBroker

/-- Python `dict[str, Any]` payload: an opaque JSON-like mapping, never
inspected by the engine. -/
abbrev Payload := List (String × String)

/-- `class Message(BaseModel)`: private id generated at construction, plus
the `data` payload. -/
structure Message where
  id : Nat
  data : Payload
deriving Repr, DecidableEq

/-- `class Channel(BaseModel)`: a name and two `OrderedDict[str, Message]`
fields, embedded as insertion-ordered association lists. -/
structure Channel where
  name : String
  ready_messages : List (Nat × Message)
  unacked_messages : List (Nat × Message)
deriving Repr, DecidableEq

/-- `class Storage`: the registry `self.channels : dict[str, Channel]`,
plus the id generator state (models the uuid4 id source). -/
structure Storage where
  channels : List (String × Channel)
  nextId : Nat
deriving Repr, DecidableEq

/-- The state of `Storage()` at process start: no channels, no ids drawn. -/
def initialStorage : Storage := ⟨[], 0⟩

section ODict

variable {α : Type} {β : Type} [DecidableEq α]

/-- Keys of an association list, in insertion order (`dict` iteration
order). -/
def odKeys (l : List (α × β)) : List α := l.map Prod.fst

/-- `k in d` for a Python dict. -/
def odContains (k : α) (l : List (α × β)) : Bool := (odKeys l).contains k

/-- `d[k]` / `d.get(k)`: first binding of `k`. -/
def odLookup (k : α) : List (α × β) → Option β
  | [] => none
  | (k', v) :: t => if k' = k then some v else odLookup k t

/-- `d[k] = v` on a Python (Ordered)Dict: update in place when the key is
present (keeping its position), otherwise append at the tail. -/
def odInsert (k : α) (v : β) : List (α × β) → List (α × β)
  | [] => [(k, v)]
  | (k', v') :: t => if k' = k then (k, v) :: t else (k', v') :: odInsert k v t

/-- `d.pop(k, default)`: the removed value (if any) and the remaining
dict. -/
def odPop (k : α) : List (α × β) → Option β × List (α × β)
  | [] => (none, [])
  | (k', v) :: t =>
    if k' = k then (some v, t)
    else
      let r := odPop k t
      (r.1, (k', v) :: r.2)

end ODict

/-- `Storage.register_channel`: raise `ValueError` (`.error`) when the name
is taken, otherwise add a fresh empty channel. -/
def register_channel (s : Storage) (channel_name : String) :
    Except String Storage :=
  if odContains channel_name s.channels then
    .error ("Channel " ++ channel_name ++ " already exists")
  else
    .ok { s with
          channels := odInsert channel_name ⟨channel_name, [], []⟩ s.channels }

/-- `Storage.get_message`: `None` when the channel is missing or its ready
queue is empty; otherwise pop the first ready item (`popitem(last=False)`),
move it into `unacked_messages` keyed by `message._id`, and return it. -/
def get_message (s : Storage) (channel_name : String) :
    Storage × Option Message :=
  match odLookup channel_name s.channels with
  | none => (s, none)
  | some c =>
    match c.ready_messages with
    | [] => (s, none)
    | (_, message) :: rest =>
      let c' : Channel :=
        { c with
          ready_messages := rest,
          unacked_messages := odInsert message.id message c.unacked_messages }
      ({ s with channels := odInsert channel_name c' s.channels }, some message)

/-- `Storage.put_message`: append the message to the channel's ready queue
keyed by `message._id`, or raise `ValueError` when the channel is missing. -/
def put_message (s : Storage) (channel_name : String) (message : Message) :
    Except String Storage :=
  match odLookup channel_name s.channels with
  | some c =>
    .ok { s with
          channels :=
            odInsert channel_name
              { c with
                ready_messages :=
                  odInsert message.id message c.ready_messages }
              s.channels }
  | none => .error ("Channel " ++ channel_name ++ " does not exist")

/-- `Storage.confirm_message`: `False` when the channel is missing;
otherwise `unacked_messages.pop(message_id, False)` — the popped `Message`
is truthy, the `False` default falsy, so the returned flag is whether a
message was removed. -/
def confirm_message (s : Storage) (channel_name : String) (message_id : Nat) :
    Storage × Bool :=
  match odLookup channel_name s.channels with
  | none => (s, false)
  | some c =>
    let r := odPop message_id c.unacked_messages
    match r.1 with
    | some _ =>
      ({ s with
         channels :=
           odInsert channel_name { c with unacked_messages := r.2 }
             s.channels }, true)
    | none => (s, false)

/-- `Storage.purge_channel_messages`: clear both dicts when the channel
exists, silently do nothing otherwise. -/
def purge_channel_messages (s : Storage) (channel_name : String) : Storage :=
  match odLookup channel_name s.channels with
  | some c =>
    { s with
      channels :=
        odInsert channel_name
          { c with ready_messages := [], unacked_messages := [] }
          s.channels }
  | none => s

/-- One entry of `Storage.get_stats` output. -/
structure ChannelStats where
  ready_messages : Nat
  unacked_messages : Nat
  total : Nat
deriving Repr, DecidableEq

/-- The stats triple of one channel. -/
def statsOf (c : Channel) : ChannelStats :=
  ⟨c.ready_messages.length, c.unacked_messages.length,
   c.ready_messages.length + c.unacked_messages.length⟩

/-- `Storage.get_stats`: with `None`, one entry per registered channel (in
registry order, keyed by `channel.name`); with a name, a single entry —
guarded by `elif channel_name and channel_name in self.channels`, so a
falsy (empty) name or a missing name yields the empty dict. -/
def get_stats (s : Storage) (channel_name : Option String) :
    List (String × ChannelStats) :=
  match channel_name with
  | none => s.channels.map (fun e => (e.2.name, statsOf e.2))
  | some n =>
    if n ≠ "" ∧ odContains n s.channels then
      match odLookup n s.channels with
      | some c => [(n, statsOf c)]
      | none => []
    else []

/-- `Message(...)` construction: the `default_factory` draws a fresh uuid.
Embedded as taking the next counter value; the returned storage has the
generator advanced. -/
def freshMessage (s : Storage) (p : Payload) : Message × Storage :=
  (⟨s.nextId, p⟩, { s with nextId := s.nextId + 1 })

/-- A parsed request body: the fields the handlers read via `body.get(...)`
(`None` when absent). `message_id`, like every message id, is embedded as a
`Nat`; an absent or never-issued id behaves as a key not present in any
`unacked_messages` dict. -/
structure Body where
  channel : Option String
  data : Option Payload
  message_id : Option Nat
deriving Repr, DecidableEq

/-- The `data` field of a `Response`: empty `{}`, a message payload, or the
stats mapping. -/
inductive RespData where
  | empty
  | payload (p : Payload)
  | stats (st : List (String × ChannelStats))
deriving Repr, DecidableEq

/-- `class Response(BaseModel)` with its four defaulted fields; the
`message_id : str = ""` default is embedded as `none`. -/
structure Response where
  data : RespData := .empty
  message : String := ""
  error : String := ""
  message_id : Option Nat := none
deriving Repr, DecidableEq

namespace Broker

/-- `Broker.register`: `body.get('channel')` may be `None`, in which case
`Channel(name=None)` raises a pydantic `ValidationError` — a `ValueError`
subclass, so the handler's `except ValueError` catches it and returns an
error response. -/
def register (s : Storage) (b : Body) : Storage × Response :=
  match b.channel with
  | some cn =>
    match register_channel s cn with
    | .ok s' =>
      (s', { message := "Channel " ++ cn ++ " successfully registred" })
    | .error e => (s, { error := e })
  | none => (s, { error := "validation error for Channel" })

/-- `Broker.send`: `Message.model_validate(body)` runs BEFORE the
`try`/`except ValueError` block, so a body without a `data` field raises an
unhandled `ValidationError` (embedded as `.error`, an exception escaping the
handler).  When validation succeeds, a fresh id is drawn; `put_message` on a
missing (or absent, hence never registered) channel name raises
`ValueError`, caught and turned into an error response. -/
def send (s : Storage) (b : Body) : Except String (Storage × Response) :=
  match b.data with
  | none => .error "ValidationError: data field required"
  | some p =>
    let ms := freshMessage s p
    match b.channel with
    | some cn =>
      match put_message ms.2 cn ms.1 with
      | .ok s' =>
        .ok (s', { data := .payload ms.1.data, message_id := some ms.1.id })
      | .error e => .ok (ms.2, { error := e })
    | none => .ok (ms.2, { error := "Channel None does not exist" })

/-- `Broker.read`: an absent `channel` field is the `None` key, never in a
`str`-keyed dict, so `get_message` returns `None` as for any unregistered
name. -/
def read (s : Storage) (b : Body) : Storage × Response :=
  let r :=
    match b.channel with
    | some cn => get_message s cn
    | none => (s, none)
  match r.2 with
  | some m =>
    (r.1, { data := .payload m.data, message_id := some m.id })
  | none => (r.1, { message := "No messages in channel" })

/-- `Broker.confirm`: an absent `channel` or `message_id` field passes
`None` through, which matches no dict key, so `confirm_message` reports
`False`. -/
def confirm (s : Storage) (b : Body) : Storage × Response :=
  let r :=
    match b.channel, b.message_id with
    | some cn, some mid => confirm_message s cn mid
    | _, _ => (s, false)
  if r.2 then (r.1, { message := "Message confirmed!" })
  else (r.1, { message := "No such message" })

/-- `Broker.purge`: unconditionally answers `Channel purged`; an absent
`channel` field is the `None` key, missing from the registry, so the purge
is a no-op. -/
def purge (s : Storage) (b : Body) : Storage × Response :=
  let s' :=
    match b.channel with
    | some cn => purge_channel_messages s cn
    | none => s
  (s', { message := "Channel purged" })

/-- `Broker.stats`. -/
def stats (s : Storage) (b : Body) : Storage × Response :=
  (s, { data := .stats (get_stats s b.channel) })

/-- `Broker.route` on an already-parsed body: dispatch on the path, every
handler but `send` cannot raise. -/
def route (s : Storage) (path : String) (b : Body) :
    Except String (Storage × Response) :=
  if path = "/register" then .ok (Broker.register s b)
  else if path = "/send" then Broker.send s b
  else if path = "/read" then .ok (Broker.read s b)
  else if path = "/confirm" then .ok (Broker.confirm s b)
  else if path = "/purge" then .ok (Broker.purge s b)
  else if path = "/stats" then .ok (Broker.stats s b)
  else .ok (s, { error := "Unknown path" })

end Broker

/-! ## Trace semantics of the queue engine

Engine operations as an inductive type and the induced state-transition
function: an operation that raises (`register` of a taken name, `put` to a
missing channel) leaves the storage unchanged apart from the already-drawn
uuid, exactly as the Python exception paths do. -/

/-- One engine operation. -/
inductive Op where
  | register (cn : String)
  | publish (cn : String) (p : Payload)
  | consume (cn : String)
  | ack (cn : String) (mid : Nat)
  | purge (cn : String)
  | stats (cn : Option String)
deriving Repr, DecidableEq

/-- State transition of one engine operation. In `publish` the message (and
its uuid) is constructed before the channel check, as in `Broker.send`. -/
def step (s : Storage) : Op → Storage
  | .register cn =>
    match register_channel s cn with
    | .ok s' => s'
    | .error _ => s
  | .publish cn p =>
    let ms := freshMessage s p
    match put_message ms.2 cn ms.1 with
    | .ok s' => s'
    | .error _ => ms.2
  | .consume cn => (get_message s cn).1
  | .ack cn mid => (confirm_message s cn mid).1
  | .purge cn => purge_channel_messages s cn
  | .stats _ => s

/-- Run a trace from a given storage. -/
def runFrom (s : Storage) (ops : List Op) : Storage := ops.foldl step s

/-- Run a trace from process start. -/
def run (ops : List Op) : Storage := runFrom initialStorage ops

/-- Ids returned by the successful `Consume` calls on channel `ch` along a
trace, in call order. -/
def consumedIds (s : Storage) (ops : List Op) (ch : String) : List Nat :=
  match ops with
  | [] => []
  | op :: rest =>
    (match op with
     | .consume cn =>
       if cn = ch then
         match (get_message s cn).2 with
         | some m => [m.id]
         | none => []
       else []
     | _ => []) ++ consumedIds (step s op) rest ch

/-- Ids issued by the successful `Publish` calls on channel `ch` along a
trace, in call order (a publish succeeds exactly when the channel is
registered; the issued id is the freshly drawn one). -/
def publishedIds (s : Storage) (ops : List Op) (ch : String) : List Nat :=
  match ops with
  | [] => []
  | op :: rest =>
    (match op with
     | .publish cn _ =>
       if cn = ch ∧ odContains cn s.channels then [s.nextId] else []
     | _ => []) ++ publishedIds (step s op) rest ch

/-- Keys of the ready queue of channel `ch` (empty for an unregistered
name), in queue order. -/
def readyIds (s : Storage) (ch : String) : List Nat :=
  match odLookup ch s.channels with
  | some c => odKeys c.ready_messages
  | none => []

/-- Keys of the unacked set of channel `ch` (empty for an unregistered
name). -/
def unackedIds (s : Storage) (ch : String) : List Nat :=
  match odLookup ch s.channels with
  | some c => odKeys c.unacked_messages
  | none => []

/-- A message id is alive in channel `ch`: present in its ready queue or
its unacked set. -/
def aliveIn (s : Storage) (ch : String) (mid : Nat) : Prop :=
  mid ∈ readyIds s ch ∨ mid ∈ unackedIds s ch

instance (s : Storage) (ch : String) (mid : Nat) :
    Decidable (aliveIn s ch mid) := by
  unfold aliveIn; infer_instance

/-- Well-formedness every Python dict enjoys by construction: no duplicate
keys; each message is keyed by its own id; every id already appearing in
the storage was drawn before the generator's current value. -/
def ChannelWF (c : Channel) (bound : Nat) : Prop :=
  (odKeys c.ready_messages).Nodup ∧
  (odKeys c.unacked_messages).Nodup ∧
  (∀ e ∈ c.ready_messages, e.1 = e.2.id ∧ e.1 < bound) ∧
  (∀ e ∈ c.unacked_messages, e.1 = e.2.id ∧ e.1 < bound) ∧
  (∀ k ∈ odKeys c.ready_messages, k ∉ odKeys c.unacked_messages)

/-- Storage well-formedness: distinct channel names, each channel
well-formed. -/
def StorageWF (s : Storage) : Prop :=
  (odKeys s.channels).Nodup ∧ ∀ e ∈ s.channels, ChannelWF e.2 s.nextId

instance (c : Channel) (bound : Nat) : Decidable (ChannelWF c bound) := by
  unfold ChannelWF; infer_instance

instance (s : Storage) : Decidable (StorageWF s) := by
  unfold StorageWF; infer_instance

/-- `op` is an engine operation addressing the single channel `ch`
(publish, consume, acknowledge, purge, or single-channel stats). -/
def addressesOnly (op : Op) (ch : String) : Prop :=
  match op with
  | .register _ => False
  | .publish cn _ => cn = ch
  | .consume cn => cn = ch
  | .ack cn _ => cn = ch
  | .purge cn => cn = ch
  | .stats cno => cno = some ch

instance (op : Op) (ch : String) : Decidable (addressesOnly op ch) :=
  match op with
  | .register _ => isFalse (fun h => h)
  | .publish cn _ => inferInstanceAs (Decidable (cn = ch))
  | .consume cn => inferInstanceAs (Decidable (cn = ch))
  | .ack cn _ => inferInstanceAs (Decidable (cn = ch))
  | .purge cn => inferInstanceAs (Decidable (cn = ch))
  | .stats cno => inferInstanceAs (Decidable (cno = some ch))

/-- The single registry key an operation can touch. -/
def opChan : Op → Option String
  | .register cn => some cn
  | .publish cn _ => some cn
  | .consume cn => some cn
  | .ack cn _ => some cn
  | .purge cn => some cn
  | .stats _ => none

/-- The ready-queue entries produced by publishing the payloads `ps` in
order when the id counter starts at `n`. -/
def pubEntries (n : Nat) : List Payload → List (Nat × Message)
  | [] => []
  | p :: ps => (n, ⟨n, p⟩) :: pubEntries (n + 1) ps

/-- A storage whose registry holds exactly one channel. -/
def oneChannel (ch : String) (R U : List (Nat × Message)) (n : Nat) :
    Storage :=
  ⟨[(ch, ⟨ch, R, U⟩)], n⟩

/-! ## Association-list (dict) lemmas -/

section ODictKeys

variable {α : Type} {β : Type}

theorem odKeys_nil : odKeys ([] : List (α × β)) = [] := rfl

theorem odKeys_cons {e : α × β} {t : List (α × β)} :
    odKeys (e :: t) = e.1 :: odKeys t := rfl

theorem odKeys_append {l₁ l₂ : List (α × β)} :
    odKeys (l₁ ++ l₂) = odKeys l₁ ++ odKeys l₂ := by
  simp [odKeys]

end ODictKeys

section ODictLemmas

variable {α : Type} {β : Type} [DecidableEq α]
variable {k k' : α} {v : β} {l : List (α × β)}

theorem odContains_iff : odContains k l = true ↔ k ∈ odKeys l := by
  simp [odContains, odKeys]

theorem odContains_eq_false : odContains k l = false ↔ k ∉ odKeys l := by
  rw [← odContains_iff]
  cases odContains k l <;> simp

theorem odLookup_eq_none : odLookup k l = none ↔ k ∉ odKeys l := by
  induction l with
  | nil => simp [odLookup, odKeys]
  | cons e t ih =>
    obtain ⟨k₁, v₁⟩ := e
    by_cases h : k₁ = k
    · subst h; simp [odLookup, odKeys]
    · simp [odLookup, odKeys, h, Ne.symm h, ih]

theorem odLookup_isSome_of_mem (h : k ∈ odKeys l) :
    ∃ v, odLookup k l = some v := by
  cases hl : odLookup k l with
  | none => exact absurd h (odLookup_eq_none.mp hl)
  | some v => exact ⟨v, rfl⟩

theorem mem_odKeys_of_lookup (h : odLookup k l = some v) : k ∈ odKeys l := by
  by_contra hk
  rw [odLookup_eq_none.mpr hk] at h
  exact Option.noConfusion h

theorem entry_mem_of_lookup (h : odLookup k l = some v) : (k, v) ∈ l := by
  induction l with
  | nil => exact Option.noConfusion h
  | cons e t ih =>
    obtain ⟨k₁, v₁⟩ := e
    by_cases hk : k₁ = k
    · subst hk
      simp [odLookup] at h
      simp [h]
    · simp [odLookup, hk] at h
      exact List.mem_cons_of_mem _ (ih h)

theorem odLookup_odInsert_self : odLookup k (odInsert k v l) = some v := by
  induction l with
  | nil => simp [odInsert, odLookup]
  | cons e t ih =>
    obtain ⟨k₁, v₁⟩ := e
    by_cases hk : k₁ = k <;> simp [odInsert, odLookup, hk, ih]

theorem odLookup_odInsert_ne (h : k' ≠ k) :
    odLookup k' (odInsert k v l) = odLookup k' l := by
  induction l with
  | nil => simp [odInsert, odLookup, Ne.symm h]
  | cons e t ih =>
    obtain ⟨k₁, v₁⟩ := e
    by_cases hk : k₁ = k
    · subst hk
      simp [odInsert, odLookup, Ne.symm h]
    · simp [odInsert, odLookup, hk, ih]

theorem odInsert_of_not_mem (h : k ∉ odKeys l) :
    odInsert k v l = l ++ [(k, v)] := by
  induction l with
  | nil => simp [odInsert]
  | cons e t ih =>
    obtain ⟨k₁, v₁⟩ := e
    simp only [odKeys, List.map_cons, List.mem_cons, not_or] at h
    simp [odInsert, Ne.symm h.1, ih (by simp [odKeys, h.2])]

theorem odKeys_odInsert_of_mem (h : k ∈ odKeys l) :
    odKeys (odInsert k v l) = odKeys l := by
  induction l with
  | nil => simp [odKeys] at h
  | cons e t ih =>
    obtain ⟨k₁, v₁⟩ := e
    by_cases hk : k₁ = k
    · simp [odInsert, hk, odKeys]
    · simp only [odKeys, List.map_cons, List.mem_cons] at h
      rcases h with h | h
      · exact absurd h.symm hk
      · simp only [odKeys, List.map_cons] at ih
        simp [odInsert, hk, odKeys, ih h]

theorem mem_odKeys_odInsert_self : k ∈ odKeys (odInsert k v l) := by
  induction l with
  | nil => simp [odInsert, odKeys]
  | cons e t ih =>
    obtain ⟨k₁, v₁⟩ := e
    by_cases hk : k₁ = k
    · subst hk; simp [odInsert, odKeys_cons]
    · simp [odInsert, hk, odKeys_cons]
      exact Or.inr ih

theorem mem_odKeys_odInsert_of_mem (h : k' ∈ odKeys l) :
    k' ∈ odKeys (odInsert k v l) := by
  induction l with
  | nil => simp [odKeys] at h
  | cons e t ih =>
    obtain ⟨k₁, v₁⟩ := e
    rw [odKeys_cons, List.mem_cons] at h
    by_cases h₁ : k₁ = k
    · subst h₁
      simp only [odInsert, if_true, reduceIte, odKeys_cons, List.mem_cons]
      exact h
    · simp only [odInsert, h₁, if_false, reduceIte, odKeys_cons,
        List.mem_cons]
      rcases h with h | h
      · exact Or.inl h
      · exact Or.inr (ih h)

theorem mem_of_mem_odInsert {e : α × β} (h : e ∈ odInsert k v l) :
    e = (k, v) ∨ e ∈ l := by
  induction l with
  | nil => simp [odInsert] at h; simp [h]
  | cons e₁ t ih =>
    obtain ⟨k₁, v₁⟩ := e₁
    by_cases hk : k₁ = k <;> simp [odInsert, hk] at h
    · rcases h with h | h
      · exact Or.inl (by simp [h])
      · exact Or.inr (List.mem_cons_of_mem _ h)
    · rcases h with h | h
      · exact Or.inr (by simp [h])
      · rcases ih h with h' | h'
        · exact Or.inl h'
        · exact Or.inr (List.mem_cons_of_mem _ h')

theorem odKeys_odInsert_nodup (h : (odKeys l).Nodup) :
    (odKeys (odInsert k v l)).Nodup := by
  by_cases hk : k ∈ odKeys l
  · rw [odKeys_odInsert_of_mem hk]; exact h
  · rw [odInsert_of_not_mem hk, odKeys_append]
    exact List.Nodup.append h (List.nodup_singleton k)
      (by simpa [List.disjoint_right, odKeys] using hk)

theorem odPop_fst : (odPop k l).1 = odLookup k l := by
  induction l with
  | nil => simp [odPop, odLookup]
  | cons e t ih =>
    obtain ⟨k₁, v₁⟩ := e
    by_cases hk : k₁ = k <;> simp [odPop, odLookup, hk, ih]

theorem mem_of_mem_odPop {e : α × β} (h : e ∈ (odPop k l).2) : e ∈ l := by
  induction l with
  | nil => simp [odPop] at h
  | cons e₁ t ih =>
    obtain ⟨k₁, v₁⟩ := e₁
    by_cases hk : k₁ = k <;> simp [odPop, hk] at h
    · exact List.mem_cons_of_mem _ h
    · rcases h with h | h
      · simp [h]
      · exact List.mem_cons_of_mem _ (ih h)

theorem odKeys_odPop_sublist :
    List.Sublist (odKeys (odPop k l).2) (odKeys l) := by
  induction l with
  | nil => simp [odPop, odKeys]
  | cons e t ih =>
    obtain ⟨k₁, v₁⟩ := e
    by_cases hk : k₁ = k <;>
      simp only [odPop, hk, if_true, if_false, reduceIte, odKeys_cons]
    · exact List.Sublist.cons _ (List.Sublist.refl _)
    · exact List.Sublist.cons₂ _ ih

theorem odKeys_odPop_nodup (h : (odKeys l).Nodup) :
    (odKeys (odPop k l).2).Nodup :=
  List.Nodup.sublist odKeys_odPop_sublist h

theorem not_mem_odKeys_odPop (h : (odKeys l).Nodup) :
    k ∉ odKeys (odPop k l).2 := by
  induction l with
  | nil => simp [odPop, odKeys]
  | cons e t ih =>
    obtain ⟨k₁, v₁⟩ := e
    rw [odKeys_cons, List.nodup_cons] at h
    by_cases hk : k₁ = k
    · subst hk
      simpa [odPop] using h.1
    · have hkk : ¬k = k₁ := fun hh => hk hh.symm
      simp [odPop, hk, odKeys_cons, hkk, ih h.2]

theorem mem_odKeys_odPop_of_ne (hne : k' ≠ k) (h : k' ∈ odKeys l) :
    k' ∈ odKeys (odPop k l).2 := by
  induction l with
  | nil => simp [odKeys] at h
  | cons e t ih =>
    obtain ⟨k₁, v₁⟩ := e
    rw [odKeys_cons, List.mem_cons] at h
    by_cases hk : k₁ = k
    · subst hk
      rcases h with h | h
      · exact absurd h hne
      · simpa [odPop] using h
    · simp [odPop, hk, odKeys_cons]
      rcases h with h | h
      · exact Or.inl h
      · exact Or.inr (ih h)

end ODictLemmas

/-! ## Well-formedness is established at start-up and preserved by every
engine operation -/

theorem ChannelWF_mono {c : Channel} {b b' : Nat} (h : b ≤ b')
    (hc : ChannelWF c b) : ChannelWF c b' := by
  obtain ⟨h1, h2, h3, h4, h5⟩ := hc
  exact ⟨h1, h2,
    fun e he => ⟨(h3 e he).1, lt_of_lt_of_le (h3 e he).2 h⟩,
    fun e he => ⟨(h4 e he).1, lt_of_lt_of_le (h4 e he).2 h⟩, h5⟩

theorem ChannelWF_empty (name : String) (b : Nat) :
    ChannelWF ⟨name, [], []⟩ b := by
  simp [ChannelWF, odKeys]

theorem StorageWF_update {s : Storage} {cn : String} {c' : Channel}
    (hwf : StorageWF s) (hc' : ChannelWF c' s.nextId) :
    StorageWF { s with channels := odInsert cn c' s.channels } := by
  refine ⟨odKeys_odInsert_nodup hwf.1, ?_⟩
  intro e he
  rcases mem_of_mem_odInsert he with h | h
  · subst h; exact hc'
  · exact hwf.2 e h

theorem StorageWF_bump {s : Storage} (hwf : StorageWF s) :
    StorageWF { s with nextId := s.nextId + 1 } :=
  ⟨hwf.1, fun e he => ChannelWF_mono (Nat.le_succ _) (hwf.2 e he)⟩

theorem not_mem_ready_of_bound {c : Channel} {n : Nat} (hc : ChannelWF c n) :
    n ∉ odKeys c.ready_messages := by
  intro hm
  obtain ⟨v, hv⟩ := odLookup_isSome_of_mem hm
  exact lt_irrefl n (hc.2.2.1 _ (entry_mem_of_lookup hv)).2

theorem not_mem_unacked_of_bound {c : Channel} {n : Nat}
    (hc : ChannelWF c n) : n ∉ odKeys c.unacked_messages := by
  intro hm
  obtain ⟨v, hv⟩ := odLookup_isSome_of_mem hm
  exact lt_irrefl n (hc.2.2.2.1 _ (entry_mem_of_lookup hv)).2

theorem ChannelWF_publish {c : Channel} {n : Nat} (p : Payload)
    (hc : ChannelWF c n) :
    ChannelWF
      { c with ready_messages := odInsert n ⟨n, p⟩ c.ready_messages }
      (n + 1) := by
  obtain ⟨h1, h2, h3, h4, h5⟩ := hc
  have hn : n ∉ odKeys c.ready_messages := not_mem_ready_of_bound ⟨h1, h2, h3, h4, h5⟩
  have hnu : n ∉ odKeys c.unacked_messages :=
    not_mem_unacked_of_bound ⟨h1, h2, h3, h4, h5⟩
  have hins : odInsert n (⟨n, p⟩ : Message) c.ready_messages
      = c.ready_messages ++ [(n, ⟨n, p⟩)] := odInsert_of_not_mem hn
  refine ⟨?_, h2, ?_, ?_, ?_⟩
  · rw [hins, odKeys_append]
    refine List.Nodup.append h1 (List.nodup_singleton n) ?_
    intro a ha ha'
    simp [odKeys] at ha'
    subst ha'
    exact hn ha
  · intro e he
    rw [hins] at he
    rcases List.mem_append.mp he with h | h
    · exact ⟨(h3 e h).1, lt_of_lt_of_le (h3 e h).2 (Nat.le_succ n)⟩
    · simp at h
      subst h
      exact ⟨rfl, Nat.lt_succ_self n⟩
  · intro e he
    exact ⟨(h4 e he).1, lt_of_lt_of_le (h4 e he).2 (Nat.le_succ n)⟩
  · intro k hk
    rw [hins, odKeys_append] at hk
    rcases List.mem_append.mp hk with h | h
    · exact h5 k h
    · simp [odKeys] at h
      subst h
      exact hnu

theorem ChannelWF_consume {c : Channel} {n mid : Nat} {m : Message}
    {rest : List (Nat × Message)} (hc : ChannelWF c n)
    (hr : c.ready_messages = (mid, m) :: rest) :
    ChannelWF
      { c with ready_messages := rest,
               unacked_messages := odInsert m.id m c.unacked_messages }
      n := by
  obtain ⟨h1, h2, h3, h4, h5⟩ := hc
  rw [hr] at h1 h3 h5
  rw [odKeys_cons, List.nodup_cons] at h1
  have hhead : mid = m.id ∧ mid < n := h3 (mid, m) (List.mem_cons_self _ _)
  have hmu : m.id ∉ odKeys c.unacked_messages := by
    have := h5 mid (by rw [odKeys_cons]; exact List.mem_cons_self _ _)
    rwa [hhead.1] at this
  have hins : odInsert m.id m c.unacked_messages
      = c.unacked_messages ++ [(m.id, m)] := odInsert_of_not_mem hmu
  refine ⟨h1.2, ?_, ?_, ?_, ?_⟩
  · rw [hins, odKeys_append]
    refine List.Nodup.append h2 (List.nodup_singleton m.id) ?_
    intro a ha ha'
    simp [odKeys] at ha'
    subst ha'
    exact hmu ha
  · intro e he
    exact h3 e (List.mem_cons_of_mem _ he)
  · intro e he
    rw [hins] at he
    rcases List.mem_append.mp he with h | h
    · exact h4 e h
    · simp at h
      subst h
      exact ⟨rfl, hhead.1 ▸ hhead.2⟩
  · intro k hk
    rw [hins, odKeys_append]
    intro hk'
    rcases List.mem_append.mp hk' with h | h
    · exact h5 k (by rw [odKeys_cons]; exact List.mem_cons_of_mem _ hk) h
    · simp [odKeys] at h
      subst h
      exact h1.1 (hhead.1 ▸ hk)

theorem ChannelWF_ack {c : Channel} {n mid : Nat} (hc : ChannelWF c n) :
    ChannelWF
      { c with unacked_messages := (odPop mid c.unacked_messages).2 } n := by
  obtain ⟨h1, h2, h3, h4, h5⟩ := hc
  exact ⟨h1, odKeys_odPop_nodup h2, h3,
    fun e he => h4 e (mem_of_mem_odPop he),
    fun k hk hk' => h5 k hk (List.Sublist.mem hk' odKeys_odPop_sublist)⟩

/-- Every engine operation preserves storage well-formedness. -/
theorem step_WF {s : Storage} (op : Op) (hwf : StorageWF s) :
    StorageWF (step s op) := by
  cases op with
  | register cn =>
    by_cases h : odContains cn s.channels = true
    · have hstep : step s (.register cn) = s := by
        simp [step, register_channel, h]
      rw [hstep]; exact hwf
    · have hstep : step s (.register cn)
          = { s with channels := odInsert cn ⟨cn, [], []⟩ s.channels } := by
        simp [step, register_channel, h]
      rw [hstep]
      exact StorageWF_update hwf (ChannelWF_empty cn s.nextId)
  | publish cn p =>
    cases hl : odLookup cn s.channels with
    | none =>
      have hstep : step s (.publish cn p)
          = { s with nextId := s.nextId + 1 } := by
        simp [step, freshMessage, put_message, hl]
      rw [hstep]; exact StorageWF_bump hwf
    | some c =>
      have hstep : step s (.publish cn p)
          = { s with
              nextId := s.nextId + 1,
              channels :=
                odInsert cn
                  { c with
                    ready_messages :=
                      odInsert s.nextId ⟨s.nextId, p⟩ c.ready_messages }
                  s.channels } := by
        simp [step, freshMessage, put_message, hl]
      rw [hstep]
      have hcwf := hwf.2 (cn, c) (entry_mem_of_lookup hl)
      exact
        ⟨odKeys_odInsert_nodup hwf.1, by
          intro e he
          rcases mem_of_mem_odInsert he with h | h
          · subst h
            exact ChannelWF_publish p hcwf
          · exact ChannelWF_mono (Nat.le_succ _) (hwf.2 e h)⟩
  | consume cn =>
    cases hl : odLookup cn s.channels with
    | none =>
      have hstep : step s (.consume cn) = s := by simp [step, get_message, hl]
      rw [hstep]; exact hwf
    | some c =>
      cases hr : c.ready_messages with
      | nil =>
        have hstep : step s (.consume cn) = s := by
          simp [step, get_message, hl, hr]
        rw [hstep]; exact hwf
      | cons e rest =>
        obtain ⟨mid, m⟩ := e
        have hstep : step s (.consume cn)
            = { s with
                channels :=
                  odInsert cn
                    { c with
                      ready_messages := rest,
                      unacked_messages :=
                        odInsert m.id m c.unacked_messages }
                    s.channels } := by
          simp [step, get_message, hl, hr]
        rw [hstep]
        exact StorageWF_update hwf
          (ChannelWF_consume (hwf.2 (cn, c) (entry_mem_of_lookup hl)) hr)
  | ack cn mid =>
    cases hl : odLookup cn s.channels with
    | none =>
      have hstep : step s (.ack cn mid) = s := by
        simp [step, confirm_message, hl]
      rw [hstep]; exact hwf
    | some c =>
      cases hp : (odPop mid c.unacked_messages).1 with
      | none =>
        have hstep : step s (.ack cn mid) = s := by
          simp [step, confirm_message, hl, hp]
        rw [hstep]; exact hwf
      | some m =>
        have hstep : step s (.ack cn mid)
            = { s with
                channels :=
                  odInsert cn
                    { c with
                      unacked_messages := (odPop mid c.unacked_messages).2 }
                    s.channels } := by
          simp [step, confirm_message, hl, hp]
        rw [hstep]
        exact StorageWF_update hwf
          (ChannelWF_ack (hwf.2 (cn, c) (entry_mem_of_lookup hl)))
  | purge cn =>
    cases hl : odLookup cn s.channels with
    | none =>
      have hstep : step s (.purge cn) = s := by
        simp [step, purge_channel_messages, hl]
      rw [hstep]; exact hwf
    | some c =>
      have hstep : step s (.purge cn)
          = { s with
              channels :=
                odInsert cn
                  { c with ready_messages := [], unacked_messages := [] }
                  s.channels } := by
        simp [step, purge_channel_messages, hl]
      rw [hstep]
      exact StorageWF_update hwf (ChannelWF_empty c.name s.nextId)
  | stats cn => exact hwf

theorem runFrom_WF {s : Storage} (ops : List Op) (hwf : StorageWF s) :
    StorageWF (runFrom s ops) := by
  induction ops generalizing s with
  | nil => exact hwf
  | cons op rest ih => exact ih (step_WF op hwf)

theorem initialStorage_WF : StorageWF initialStorage := by
  simp [StorageWF, initialStorage, odKeys]

theorem run_WF (ops : List Op) : StorageWF (run ops) :=
  runFrom_WF ops initialStorage_WF

/-! ## How each operation transforms the per-channel views -/

theorem odLookup_step_ne {s : Storage} {op : Op} {ch : String}
    (h : opChan op ≠ some ch) :
    odLookup ch (step s op).channels = odLookup ch s.channels := by
  cases op with
  | register cn =>
    have hne : cn ≠ ch := fun hh => h (by simp [opChan, hh])
    by_cases hc : odContains cn s.channels = true <;>
      simp [step, register_channel, hc, odLookup_odInsert_ne (Ne.symm hne)]
  | publish cn p =>
    have hne : cn ≠ ch := fun hh => h (by simp [opChan, hh])
    cases hl : odLookup cn s.channels <;>
      simp [step, freshMessage, put_message, hl,
        odLookup_odInsert_ne (Ne.symm hne)]
  | consume cn =>
    have hne : cn ≠ ch := fun hh => h (by simp [opChan, hh])
    cases hl : odLookup cn s.channels with
    | none => simp [step, get_message, hl]
    | some c =>
      cases hr : c.ready_messages with
      | nil => simp [step, get_message, hl, hr]
      | cons e rest =>
        obtain ⟨mid, m⟩ := e
        simp [step, get_message, hl, hr,
          odLookup_odInsert_ne (Ne.symm hne)]
  | ack cn mid =>
    have hne : cn ≠ ch := fun hh => h (by simp [opChan, hh])
    cases hl : odLookup cn s.channels with
    | none => simp [step, confirm_message, hl]
    | some c =>
      cases hp : (odPop mid c.unacked_messages).1 <;>
        simp [step, confirm_message, hl, hp,
          odLookup_odInsert_ne (Ne.symm hne)]
  | purge cn =>
    have hne : cn ≠ ch := fun hh => h (by simp [opChan, hh])
    cases hl : odLookup cn s.channels <;>
      simp [step, purge_channel_messages, hl,
        odLookup_odInsert_ne (Ne.symm hne)]
  | stats cn => rfl

theorem readyIds_eq_of_lookup_eq {s s' : Storage} {ch : String}
    (h : odLookup ch s'.channels = odLookup ch s.channels) :
    readyIds s' ch = readyIds s ch := by
  simp [readyIds, h]

theorem unackedIds_eq_of_lookup_eq {s s' : Storage} {ch : String}
    (h : odLookup ch s'.channels = odLookup ch s.channels) :
    unackedIds s' ch = unackedIds s ch := by
  simp [unackedIds, h]

/-- No operation but `register` changes the set (or order) of registered
channel names. -/
theorem odKeys_step_channels {s : Storage} {op : Op}
    (h : ∀ cn, op ≠ .register cn) :
    odKeys (step s op).channels = odKeys s.channels := by
  cases op with
  | register cn => exact absurd rfl (h cn)
  | publish cn p =>
    cases hl : odLookup cn s.channels with
    | none => simp [step, freshMessage, put_message, hl]
    | some c =>
      simp [step, freshMessage, put_message, hl,
        odKeys_odInsert_of_mem (mem_odKeys_of_lookup hl)]
  | consume cn =>
    cases hl : odLookup cn s.channels with
    | none => simp [step, get_message, hl]
    | some c =>
      cases hr : c.ready_messages with
      | nil => simp [step, get_message, hl, hr]
      | cons e rest =>
        obtain ⟨mid, m⟩ := e
        simp [step, get_message, hl, hr,
          odKeys_odInsert_of_mem (mem_odKeys_of_lookup hl)]
  | ack cn mid =>
    cases hl : odLookup cn s.channels with
    | none => simp [step, confirm_message, hl]
    | some c =>
      cases hp : (odPop mid c.unacked_messages).1 <;>
        simp [step, confirm_message, hl, hp,
          odKeys_odInsert_of_mem (mem_odKeys_of_lookup hl)]
  | purge cn =>
    cases hl : odLookup cn s.channels with
    | none => simp [step, purge_channel_messages, hl]
    | some c =>
      simp [step, purge_channel_messages, hl,
        odKeys_odInsert_of_mem (mem_odKeys_of_lookup hl)]
  | stats cn => rfl

theorem nextId_step_register {s : Storage} {cn : String} :
    (step s (.register cn)).nextId = s.nextId := by
  by_cases hc : odContains cn s.channels = true <;>
    simp [step, register_channel, hc]

theorem nextId_step_publish {s : Storage} {cn : String} {p : Payload} :
    (step s (.publish cn p)).nextId = s.nextId + 1 := by
  cases hl : odLookup cn s.channels <;>
    simp [step, freshMessage, put_message, hl]

theorem nextId_step_consume {s : Storage} {cn : String} :
    (step s (.consume cn)).nextId = s.nextId := by
  cases hl : odLookup cn s.channels with
  | none => simp [step, get_message, hl]
  | some c =>
    cases hr : c.ready_messages with
    | nil => simp [step, get_message, hl, hr]
    | cons e rest =>
      obtain ⟨mid, m⟩ := e
      simp [step, get_message, hl, hr]

theorem nextId_step_ack {s : Storage} {cn : String} {mid : Nat} :
    (step s (.ack cn mid)).nextId = s.nextId := by
  cases hl : odLookup cn s.channels with
  | none => simp [step, confirm_message, hl]
  | some c =>
    cases hp : (odPop mid c.unacked_messages).1 <;>
      simp [step, confirm_message, hl, hp]

theorem nextId_step_purge {s : Storage} {cn : String} :
    (step s (.purge cn)).nextId = s.nextId := by
  cases hl : odLookup cn s.channels <;>
    simp [step, purge_channel_messages, hl]

/-- `register` never changes any channel's ready view: a failed
registration changes nothing, a fresh registration creates an empty
channel where there was none. -/
theorem readyIds_step_register {s : Storage} {cn ch : String} :
    readyIds (step s (.register cn)) ch = readyIds s ch := by
  by_cases hne : cn = ch
  · subst hne
    by_cases hc : odContains cn s.channels = true
    · simp [step, register_channel, hc]
    · have hl : odLookup cn s.channels = none :=
        odLookup_eq_none.mpr (fun hm => hc (odContains_iff.mpr hm))
      have hstep : step s (.register cn)
          = { s with channels := odInsert cn ⟨cn, [], []⟩ s.channels } := by
        simp [step, register_channel, hc]
      simp [hstep, readyIds, odLookup_odInsert_self, hl, odKeys]
  · exact readyIds_eq_of_lookup_eq
      (odLookup_step_ne (by simp [opChan, hne]))

theorem unackedIds_step_register {s : Storage} {cn ch : String} :
    unackedIds (step s (.register cn)) ch = unackedIds s ch := by
  by_cases hne : cn = ch
  · subst hne
    by_cases hc : odContains cn s.channels = true
    · simp [step, register_channel, hc]
    · have hl : odLookup cn s.channels = none :=
        odLookup_eq_none.mpr (fun hm => hc (odContains_iff.mpr hm))
      have hstep : step s (.register cn)
          = { s with channels := odInsert cn ⟨cn, [], []⟩ s.channels } := by
        simp [step, register_channel, hc]
      simp [hstep, unackedIds, odLookup_odInsert_self, hl, odKeys]
  · exact unackedIds_eq_of_lookup_eq
      (odLookup_step_ne (by simp [opChan, hne]))

/-- A successful publish appends the freshly drawn id at the tail of the
ready queue. -/
theorem readyIds_step_publish_self {s : Storage} {ch : String} {p : Payload}
    {c : Channel} (hwf : StorageWF s) (hl : odLookup ch s.channels = some c) :
    readyIds (step s (.publish ch p)) ch = readyIds s ch ++ [s.nextId] := by
  have hfresh : s.nextId ∉ odKeys c.ready_messages :=
    not_mem_ready_of_bound (hwf.2 (ch, c) (entry_mem_of_lookup hl))
  have hstep : step s (.publish ch p)
      = { s with
          nextId := s.nextId + 1,
          channels :=
            odInsert ch
              { c with
                ready_messages :=
                  odInsert s.nextId ⟨s.nextId, p⟩ c.ready_messages }
              s.channels } := by
    simp [step, freshMessage, put_message, hl]
  simp [hstep, readyIds, odLookup_odInsert_self, hl,
    odInsert_of_not_mem hfresh, odKeys_append, odKeys]

/-- A failed publish (missing channel) only burns an id. -/
theorem readyIds_step_publish_fail {s : Storage} {ch : String} {p : Payload}
    (hl : odLookup ch s.channels = none) :
    readyIds (step s (.publish ch p)) ch = readyIds s ch := by
  have hstep : step s (.publish ch p) = { s with nextId := s.nextId + 1 } := by
    simp [step, freshMessage, put_message, hl]
  simp [hstep, readyIds]

/-- Publish never touches any unacked set. -/
theorem unackedIds_step_publish {s : Storage} {cn ch : String} {p : Payload} :
    unackedIds (step s (.publish cn p)) ch = unackedIds s ch := by
  by_cases hne : cn = ch
  · subst hne
    cases hl : odLookup cn s.channels with
    | none =>
      have hstep : step s (.publish cn p)
          = { s with nextId := s.nextId + 1 } := by
        simp [step, freshMessage, put_message, hl]
      simp [hstep, unackedIds]
    | some c =>
      have hstep : step s (.publish cn p)
          = { s with
              nextId := s.nextId + 1,
              channels :=
                odInsert cn
                  { c with
                    ready_messages :=
                      odInsert s.nextId ⟨s.nextId, p⟩ c.ready_messages }
                  s.channels } := by
        simp [step, freshMessage, put_message, hl]
      simp [hstep, unackedIds, odLookup_odInsert_self, hl]
  · exact unackedIds_eq_of_lookup_eq
      (odLookup_step_ne (by simp [opChan, hne]))

/-- Acknowledge never touches any ready queue. -/
theorem readyIds_step_ack {s : Storage} {cn ch : String} {mid : Nat} :
    readyIds (step s (.ack cn mid)) ch = readyIds s ch := by
  by_cases hne : cn = ch
  · subst hne
    cases hl : odLookup cn s.channels with
    | none => simp [step, confirm_message, hl]
    | some c =>
      cases hp : (odPop mid c.unacked_messages).1 with
      | none => simp [step, confirm_message, hl, hp]
      | some m =>
        have hstep : step s (.ack cn mid)
            = { s with
                channels :=
                  odInsert cn
                    { c with
                      unacked_messages := (odPop mid c.unacked_messages).2 }
                    s.channels } := by
          simp [step, confirm_message, hl, hp]
        simp [hstep, readyIds, odLookup_odInsert_self, hl]
  · exact readyIds_eq_of_lookup_eq
      (odLookup_step_ne (by simp [opChan, hne]))

/-- A successful consume pops the ready head and files it under its own id
in the unacked set. -/
theorem consume_step_cons {s : Storage} {ch : String} {c : Channel}
    {mid : Nat} {m : Message} {rest : List (Nat × Message)}
    (hl : odLookup ch s.channels = some c)
    (hr : c.ready_messages = (mid, m) :: rest) :
    readyIds (step s (.consume ch)) ch = odKeys rest
    ∧ unackedIds (step s (.consume ch)) ch
        = odKeys (odInsert m.id m c.unacked_messages)
    ∧ (get_message s ch).2 = some m := by
  have hstep : step s (.consume ch)
      = { s with
          channels :=
            odInsert ch
              { c with
                ready_messages := rest,
                unacked_messages := odInsert m.id m c.unacked_messages }
              s.channels } := by
    simp [step, get_message, hl, hr]
  refine ⟨?_, ?_, ?_⟩
  · simp [hstep, readyIds, odLookup_odInsert_self]
  · simp [hstep, unackedIds, odLookup_odInsert_self]
  · simp [get_message, hl, hr]

/-- A consume on a missing channel or an empty ready queue changes nothing
and returns nothing. -/
theorem consume_step_empty {s : Storage} {ch : String}
    (h : readyIds s ch = []) :
    step s (.consume ch) = s ∧ (get_message s ch).2 = none := by
  cases hl : odLookup ch s.channels with
  | none => exact ⟨by simp [step, get_message, hl], by simp [get_message, hl]⟩
  | some c =>
    have hkeys : odKeys c.ready_messages = [] := by
      have h' := h
      rw [readyIds, hl] at h'
      simpa using h'
    have hr : c.ready_messages = [] := by
      cases hcr : c.ready_messages with
      | nil => rfl
      | cons e rest =>
        rw [hcr, odKeys_cons] at hkeys
        exact absurd hkeys (by simp)
    exact ⟨by simp [step, get_message, hl, hr], by simp [get_message, hl, hr]⟩

/-- Purging a registered channel empties both views; purging a missing name
changes nothing. -/
theorem purge_step_views {s : Storage} {ch : String} :
    readyIds (step s (.purge ch)) ch = []
    ∧ unackedIds (step s (.purge ch)) ch = [] := by
  cases hl : odLookup ch s.channels with
  | none =>
    have hstep : step s (.purge ch) = s := by
      simp [step, purge_channel_messages, hl]
    constructor <;> simp [hstep, readyIds, unackedIds, hl, odKeys]
  | some c =>
    have hstep : step s (.purge ch)
        = { s with
            channels :=
              odInsert ch
                { c with ready_messages := [], unacked_messages := [] }
                s.channels } := by
      simp [step, purge_channel_messages, hl]
    constructor <;>
      simp [hstep, readyIds, unackedIds, odLookup_odInsert_self, odKeys]

theorem purge_step_other {s : Storage} {cn ch : String} (hne : cn ≠ ch) :
    readyIds (step s (.purge cn)) ch = readyIds s ch
    ∧ unackedIds (step s (.purge cn)) ch = unackedIds s ch :=
  ⟨readyIds_eq_of_lookup_eq (odLookup_step_ne (by simp [opChan, hne])),
   unackedIds_eq_of_lookup_eq (odLookup_step_ne (by simp [opChan, hne]))⟩

/-! ## Claim theorems -/

/-- Claim C7: registering a taken name fails with the already-exists error
and has no side effect (the whole storage — registry, queues, id source —
is unchanged); registering a fresh name appends a new empty channel under
that name. -/
theorem C7_register_channel (s : Storage) (name : String) :
    (odContains name s.channels = true →
        register_channel s name
          = .error ("Channel " ++ name ++ " already exists")
        ∧ step s (.register name) = s)
    ∧ (odContains name s.channels = false →
        register_channel s name
          = .ok { s with
                  channels := s.channels ++ [(name, ⟨name, [], []⟩)] }) := by
  constructor
  · intro h
    constructor
    · simp [register_channel, h]
    · simp [step, register_channel, h]
  · intro h
    have hnm : name ∉ odKeys s.channels := by
      intro hm
      rw [odContains_iff.mpr hm] at h
      exact Bool.noConfusion h
    simp [register_channel, h, odInsert_of_not_mem hnm]

/-- Concrete run of `C7_register_channel`: the second registration of
`"a"` fails without side effect, the first one creates the empty
channel. -/
theorem C7_register_channel_witness :
    (register_channel (run [Op.register "a"]) "a"
        = .error ("Channel " ++ "a" ++ " already exists")
      ∧ step (run [Op.register "a"]) (.register "a") = run [Op.register "a"])
    ∧ register_channel initialStorage "a"
        = .ok { initialStorage with
                channels :=
                  initialStorage.channels ++ [("a", ⟨"a", [], []⟩)] } :=
  ⟨(C7_register_channel (run [Op.register "a"]) "a").1 (by decide),
   (C7_register_channel initialStorage "a").2 (by decide)⟩

/-- Claim C3 counterexample: on a fresh storage with no channel `"x"`,
read, confirm, purge and single-channel stats addressed to `"x"` all
return benign responses with an empty `error` field — none of them fails
with a channel-not-found error, contradicting the claim that every
operation on a missing channel does. -/
theorem C3_counterexample :
    odContains "x" initialStorage.channels = false
    ∧ (Broker.read initialStorage ⟨some "x", none, none⟩).2
        = { message := "No messages in channel" }
    ∧ (Broker.confirm initialStorage ⟨some "x", none, some 0⟩).2
        = { message := "No such message" }
    ∧ (Broker.purge initialStorage ⟨some "x", none, none⟩).2
        = { message := "Channel purged" }
    ∧ (Broker.stats initialStorage ⟨some "x", none, none⟩).2
        = { data := .stats [] } := by decide

/-- Claim C3 (amended): only `Publish` fails on a missing channel (with
the channel-does-not-exist error); `Consume`, `Acknowledge`, `Purge` and
single-channel `Stats` on a missing channel are benign no-ops — empty
result, `false`, unchanged state, empty stats. -/
theorem C3_missing_channel (s : Storage) (cn : String) (m : Message)
    (mid : Nat) (h : odContains cn s.channels = false) :
    put_message s cn m = .error ("Channel " ++ cn ++ " does not exist")
    ∧ get_message s cn = (s, none)
    ∧ confirm_message s cn mid = (s, false)
    ∧ purge_channel_messages s cn = s
    ∧ get_stats s (some cn) = [] := by
  have hl : odLookup cn s.channels = none := by
    rw [odLookup_eq_none]
    intro hm
    rw [odContains_iff.mpr hm] at h
    exact Bool.noConfusion h
  refine ⟨?_, ?_, ?_, ?_, ?_⟩
  · simp [put_message, hl]
  · simp [get_message, hl]
  · simp [confirm_message, hl]
  · simp [purge_channel_messages, hl]
  · simp [get_stats, h]

/-- Concrete run of `C3_missing_channel` on the empty storage. -/
theorem C3_missing_channel_witness :
    put_message initialStorage "x" ⟨0, []⟩
        = .error ("Channel " ++ "x" ++ " does not exist")
    ∧ get_message initialStorage "x" = (initialStorage, none)
    ∧ confirm_message initialStorage "x" 7 = (initialStorage, false)
    ∧ purge_channel_messages initialStorage "x" = initialStorage
    ∧ get_stats initialStorage (some "x") = [] :=
  C3_missing_channel initialStorage "x" ⟨0, []⟩ 7 (by decide)

/-- Claim C4 counterexample: the channel named `""` can be registered, but
after purging it, single-channel stats on it reports nothing at all (the
`elif channel_name and ...` truthiness guard drops the falsy empty name)
instead of the all-zero triple the claim promises for every registered
channel. -/
theorem C4_counterexample :
    odContains "" (run [Op.register ""]).channels = true
    ∧ ¬ odLookup ""
          (get_stats (purge_channel_messages (run [Op.register ""]) "")
            (some ""))
        = some ⟨0, 0, 0⟩ := by decide

/-- Claim C4 (amended to channels with a non-empty name): purging a
registered channel empties both queues, so stats reports the all-zero
triple and a subsequent consume returns the empty result without changing
the state. -/
theorem C4_purge_resets (s : Storage) (ch : String)
    (hreg : odContains ch s.channels = true) (hname : ch ≠ "") :
    odLookup ch (get_stats (purge_channel_messages s ch) (some ch))
        = some ⟨0, 0, 0⟩
    ∧ (get_message (purge_channel_messages s ch) ch).2 = none
    ∧ (get_message (purge_channel_messages s ch) ch).1
        = purge_channel_messages s ch := by
  obtain ⟨c, hl⟩ := odLookup_isSome_of_mem (odContains_iff.mp hreg)
  have hpurge : purge_channel_messages s ch
      = { s with
          channels :=
            odInsert ch
              { c with ready_messages := [], unacked_messages := [] }
              s.channels } := by
    simp [purge_channel_messages, hl]
  have hl' : odLookup ch (purge_channel_messages s ch).channels
      = some { c with ready_messages := [], unacked_messages := [] } := by
    rw [hpurge]; exact odLookup_odInsert_self
  have hcont : odContains ch (purge_channel_messages s ch).channels = true :=
    odContains_iff.mpr (mem_odKeys_of_lookup hl')
  refine ⟨?_, ?_, ?_⟩
  · simp [get_stats, hname, hcont, hl', statsOf, odLookup]
  · simp [get_message, hl']
  · simp [get_message, hl']

/-- Concrete run of `C4_purge_resets` after one publish and one consume on
`"a"`. -/
theorem C4_purge_resets_witness :
    odLookup "a"
        (get_stats
          (purge_channel_messages
            (run [Op.register "a", Op.publish "a" [("k", "v")],
              Op.consume "a"]) "a")
          (some "a"))
      = some ⟨0, 0, 0⟩
    ∧ (get_message
          (purge_channel_messages
            (run [Op.register "a", Op.publish "a" [("k", "v")],
              Op.consume "a"]) "a") "a").2
        = none
    ∧ (get_message
          (purge_channel_messages
            (run [Op.register "a", Op.publish "a" [("k", "v")],
              Op.consume "a"]) "a") "a").1
        = purge_channel_messages
            (run [Op.register "a", Op.publish "a" [("k", "v")],
              Op.consume "a"]) "a" :=
  C4_purge_resets
    (run [Op.register "a", Op.publish "a" [("k", "v")], Op.consume "a"])
    "a" (by decide) (by decide)

/-- Claim C6: acknowledging the id just returned by a consume succeeds
(reports a removal) exactly once — a second acknowledge of the same id
reports `false` and leaves the state unchanged; acknowledging an id not in
the unacked set is a no-op reporting `false`; and at the router level a
failed confirm carries a plain message, never an error. -/
theorem C6_ack_exactly_once (s : Storage) (ch : String) (m : Message)
    (hwf : StorageWF s) (hc : (get_message s ch).2 = some m) :
    (confirm_message (get_message s ch).1 ch m.id).2 = true
    ∧ confirm_message (confirm_message (get_message s ch).1 ch m.id).1 ch
        m.id
      = ((confirm_message (get_message s ch).1 ch m.id).1, false)
    ∧ (∀ mid, mid ∉ unackedIds s ch → confirm_message s ch mid = (s, false))
    ∧ (∀ st b, (Broker.confirm st b).2.error = "") := by
  cases hl : odLookup ch s.channels with
  | none => simp [get_message, hl] at hc
  | some c =>
    cases hr : c.ready_messages with
    | nil => simp [get_message, hl, hr] at hc
    | cons e rest =>
      obtain ⟨mid0, m0⟩ := e
      have hm0 : m0 = m := by simpa [get_message, hl, hr] using hc
      subst hm0
      have hnodup : (odKeys c.unacked_messages).Nodup :=
        (hwf.2 (ch, c) (entry_mem_of_lookup hl)).2.1
      have h1 : (get_message s ch).1
          = { s with
              channels :=
                odInsert ch
                  { c with
                    ready_messages := rest,
                    unacked_messages :=
                      odInsert m0.id m0 c.unacked_messages }
                  s.channels } := by
        simp [get_message, hl, hr]
      have hl1 : odLookup ch (get_message s ch).1.channels
          = some { c with
                   ready_messages := rest,
                   unacked_messages :=
                     odInsert m0.id m0 c.unacked_messages } := by
        rw [h1]; exact odLookup_odInsert_self
      have hpop1 :
          (odPop m0.id (odInsert m0.id m0 c.unacked_messages)).1
            = some m0 := by
        rw [odPop_fst, odLookup_odInsert_self]
      have hconf1 : confirm_message (get_message s ch).1 ch m0.id
          = ({ (get_message s ch).1 with
               channels :=
                 odInsert ch
                   { c with
                     ready_messages := rest,
                     unacked_messages :=
                       (odPop m0.id
                         (odInsert m0.id m0 c.unacked_messages)).2 }
                   (get_message s ch).1.channels }, true) := by
        simp [confirm_message, hl1, hpop1]
      have hnodup1 :
          (odKeys (odInsert m0.id m0 c.unacked_messages)).Nodup :=
        odKeys_odInsert_nodup hnodup
      have hnot : m0.id
          ∉ odKeys (odPop m0.id (odInsert m0.id m0 c.unacked_messages)).2 :=
        not_mem_odKeys_odPop hnodup1
      have hpop2 :
          (odPop m0.id
            (odPop m0.id (odInsert m0.id m0 c.unacked_messages)).2).1
            = none := by
        rw [odPop_fst]
        exact odLookup_eq_none.mpr hnot
      refine ⟨?_, ?_, ?_, ?_⟩
      · rw [hconf1]
      · rw [hconf1]
        simp [confirm_message, odLookup_odInsert_self, hpop2]
      · intro mid hmid
        rw [unackedIds, hl] at hmid
        have hln : odLookup mid c.unacked_messages = none :=
          odLookup_eq_none.mpr hmid
        have hp : (odPop mid c.unacked_messages).1 = none := by
          rw [odPop_fst, hln]
        simp [confirm_message, hl, hp]
      · intro st b
        rcases hb :
            (match b.channel, b.message_id with
             | some cn, some mid => confirm_message st cn mid
             | _, _ => (st, false)) with ⟨s', ok⟩
        simp only [Broker.confirm, hb]
        cases ok <;> rfl

/-- Concrete run of `C6_ack_exactly_once` after one publish and one
consume on `"a"`. -/
theorem C6_ack_exactly_once_witness :
    (confirm_message
        (get_message (run [Op.register "a", Op.publish "a" [("k", "v")]])
            "a").1
        "a" (Message.mk 0 [("k", "v")]).id).2 = true
    ∧ confirm_message
        (confirm_message
          (get_message (run [Op.register "a", Op.publish "a" [("k", "v")]])
              "a").1
          "a" (Message.mk 0 [("k", "v")]).id).1
        "a" (Message.mk 0 [("k", "v")]).id
      = ((confirm_message
            (get_message (run [Op.register "a", Op.publish "a" [("k", "v")]])
                "a").1
            "a" (Message.mk 0 [("k", "v")]).id).1, false)
    ∧ confirm_message (run [Op.register "a", Op.publish "a" [("k", "v")]])
        "a" 5
      = (run [Op.register "a", Op.publish "a" [("k", "v")]], false)
    ∧ (Broker.confirm initialStorage ⟨some "q", none, some 3⟩).2.error
        = "" := by
  have h := C6_ack_exactly_once
    (run [Op.register "a", Op.publish "a" [("k", "v")]]) "a"
    (Message.mk 0 [("k", "v")]) (by decide) (by decide)
  exact ⟨h.1, h.2.1, h.2.2.1 5 (by decide), h.2.2.2 initialStorage _⟩

/-- Claim C9: the router is NOT total — a `/send` request whose body lacks
the payload field runs `Message.model_validate` before the handler's
`try`/`except`, so the validation error escapes as an unhandled exception
(modelled as the `.error` branch of `Broker.route`) instead of any
structured response. -/
theorem C9_send_without_payload_raises :
    Broker.route initialStorage "/send" ⟨some "x", none, none⟩
      = .error "ValidationError: data field required" := rfl

/-- Claim C10: every engine operation addressing a single channel leaves
every other channel's stored state (hence its ready queue and unacked set)
untouched, and leaves the list of registered channel names unchanged. -/
theorem C10_single_channel_frame (s : Storage) (op : Op) (ch ch' : String)
    (haddr : addressesOnly op ch) (hne : ch' ≠ ch) :
    odLookup ch' (step s op).channels = odLookup ch' s.channels
    ∧ odKeys (step s op).channels = odKeys s.channels := by
  have hlk : opChan op ≠ some ch' := by
    cases op with
    | register cn => exact haddr.elim
    | stats cno => simp [opChan]
    | publish cn p =>
      have hcn : cn = ch := haddr
      simp [opChan, hcn, Ne.symm hne]
    | consume cn =>
      have hcn : cn = ch := haddr
      simp [opChan, hcn, Ne.symm hne]
    | ack cn mid =>
      have hcn : cn = ch := haddr
      simp [opChan, hcn, Ne.symm hne]
    | purge cn =>
      have hcn : cn = ch := haddr
      simp [opChan, hcn, Ne.symm hne]
  have hreg : ∀ cn, op ≠ .register cn := by
    cases op with
    | register cn => exact haddr.elim
    | stats cno => intro cn; simp
    | publish cn p => intro cn'; simp
    | consume cn => intro cn'; simp
    | ack cn mid => intro cn'; simp
    | purge cn => intro cn'; simp
  exact ⟨odLookup_step_ne hlk, odKeys_step_channels hreg⟩

/-- Concrete run of `C10_single_channel_frame`: purging `"a"` leaves
channel `"b"` and the registry keys unchanged. -/
theorem C10_single_channel_frame_witness :
    odLookup "b"
        (step (run [Op.register "a", Op.register "b"])
          (Op.purge "a")).channels
      = odLookup "b" (run [Op.register "a", Op.register "b"]).channels
    ∧ odKeys
        (step (run [Op.register "a", Op.register "b"])
          (Op.purge "a")).channels
      = odKeys (run [Op.register "a", Op.register "b"]).channels :=
  C10_single_channel_frame (run [Op.register "a", Op.register "b"])
    (Op.purge "a") "a" "b" (by decide) (by decide)

theorem runFrom_nil (s : Storage) : runFrom s [] = s := rfl

theorem runFrom_cons (s : Storage) (op : Op) (ops : List Op) :
    runFrom s (op :: ops) = runFrom (step s op) ops := rfl

/-- FIFO invariant: along any trace with no purge of `ch`, the ids
published to `ch` split into the ids already consumed from `ch` followed
by the ids still in its ready queue, in order. -/
theorem fifo_split (ops : List Op) (ch : String) :
    ∀ s : Storage, StorageWF s → (∀ op ∈ ops, op ≠ .purge ch) →
      readyIds s ch ++ publishedIds s ops ch
        = consumedIds s ops ch ++ readyIds (runFrom s ops) ch := by
  induction ops with
  | nil => intro s _ _; simp [publishedIds, consumedIds, runFrom]
  | cons op rest ih =>
    intro s hwf hnp
    have hnp' : ∀ o ∈ rest, o ≠ Op.purge ch :=
      fun o ho => hnp o (List.mem_cons_of_mem _ ho)
    have ihs := ih (step s op) (step_WF op hwf) hnp'
    rw [runFrom_cons]
    cases op with
    | register cn =>
      rw [readyIds_step_register] at ihs
      simpa [publishedIds, consumedIds] using ihs
    | publish cn p =>
      by_cases hcn : cn = ch
      · subst hcn
        cases hl : odLookup cn s.channels with
        | none =>
          have hco : odContains cn s.channels = false :=
            odContains_eq_false.mpr (odLookup_eq_none.mp hl)
          rw [readyIds_step_publish_fail hl] at ihs
          simpa [publishedIds, consumedIds, hco] using ihs
        | some c =>
          have hco : odContains cn s.channels = true :=
            odContains_iff.mpr (mem_odKeys_of_lookup hl)
          rw [readyIds_step_publish_self hwf hl] at ihs
          simpa [publishedIds, consumedIds, hco] using ihs
      · have hfr : readyIds (step s (.publish cn p)) ch = readyIds s ch :=
          readyIds_eq_of_lookup_eq (odLookup_step_ne (by simp [opChan, hcn]))
        rw [hfr] at ihs
        simpa [publishedIds, consumedIds, hcn] using ihs
    | consume cn =>
      by_cases hcn : cn = ch
      · subst hcn
        cases hl : odLookup cn s.channels with
        | none =>
          have hre : readyIds s cn = [] := by simp [readyIds, hl]
          obtain ⟨hstep, hout⟩ := consume_step_empty hre
          rw [hstep] at ihs ⊢
          simpa [publishedIds, consumedIds, hout, hstep] using ihs
        | some c =>
          cases hr : c.ready_messages with
          | nil =>
            have hre : readyIds s cn = [] := by
              simp [readyIds, hl, hr, odKeys]
            obtain ⟨hstep, hout⟩ := consume_step_empty hre
            rw [hstep] at ihs ⊢
            simpa [publishedIds, consumedIds, hout, hstep] using ihs
          | cons e rq =>
            obtain ⟨mid, m⟩ := e
            obtain ⟨hready, hun, hout⟩ := consume_step_cons hl hr
            have hmid : mid = m.id :=
              ((hwf.2 (cn, c) (entry_mem_of_lookup hl)).2.2.1 (mid, m)
                (by rw [hr]; exact List.mem_cons_self _ _)).1
            have hrs : readyIds s cn = mid :: odKeys rq := by
              simp [readyIds, hl, hr, odKeys_cons]
            rw [hready] at ihs
            rw [hrs, hmid]
            simp [publishedIds, consumedIds, hout, ihs]
      · have hfr : readyIds (step s (.consume cn)) ch = readyIds s ch :=
          readyIds_eq_of_lookup_eq (odLookup_step_ne (by simp [opChan, hcn]))
        rw [hfr] at ihs
        simpa [publishedIds, consumedIds, hcn] using ihs
    | ack cn mid =>
      rw [readyIds_step_ack] at ihs
      simpa [publishedIds, consumedIds] using ihs
    | purge cn =>
      have hcn : cn ≠ ch := by
        intro hh
        exact hnp _ (List.mem_cons_self _ _) (by rw [hh])
      rw [(purge_step_other hcn).1] at ihs
      simpa [publishedIds, consumedIds] using ihs
    | stats cno =>
      simpa [publishedIds, consumedIds] using ihs

/-- Claim C1: along any trace of engine operations that never purges
channel `ch`, the sequence of message ids returned by the successful
consumes on `ch` is a prefix of the sequence of ids issued by the
successful publishes on `ch` — consumption happens in exactly publish
(FIFO) order. -/
theorem C1_consume_in_publish_order (ops : List Op) (ch : String)
    (hnp : ∀ op ∈ ops, op ≠ .purge ch) :
    List.IsPrefix (consumedIds initialStorage ops ch)
      (publishedIds initialStorage ops ch) := by
  have h := fifo_split ops ch initialStorage initialStorage_WF hnp
  have hinit : readyIds initialStorage ch = [] := by
    simp [readyIds, initialStorage, odLookup]
  rw [hinit, List.nil_append] at h
  exact ⟨readyIds (runFrom initialStorage ops) ch, h.symm⟩

/-- Concrete run of `C1_consume_in_publish_order`: two publishes then two
consumes on `"a"`, interleaved with traffic on `"b"`. -/
theorem C1_consume_in_publish_order_witness :
    List.IsPrefix
      (consumedIds initialStorage
        [Op.register "a", Op.register "b", Op.publish "a" [("n", "1")],
          Op.publish "b" [], Op.publish "a" [("n", "2")], Op.consume "a",
          Op.purge "b", Op.consume "a"] "a")
      (publishedIds initialStorage
        [Op.register "a", Op.register "b", Op.publish "a" [("n", "1")],
          Op.publish "b" [], Op.publish "a" [("n", "2")], Op.consume "a",
          Op.purge "b", Op.consume "a"] "a") :=
  C1_consume_in_publish_order _ "a" (by decide)

/-- Transfer of the "still ready, or not yet drawn" disjunction backwards
across one step. -/
theorem consume_transfer {s : Storage} {op : Op} {ch : String} {i : Nat}
    (hwf : StorageWF s)
    (h : i ∈ readyIds (step s op) ch ∨ (step s op).nextId ≤ i) :
    i ∈ readyIds s ch ∨ s.nextId ≤ i := by
  cases op with
  | register cn =>
    rcases h with h | h
    · exact Or.inl (by rwa [readyIds_step_register] at h)
    · exact Or.inr (by rwa [nextId_step_register] at h)
  | publish cn p =>
    rw [nextId_step_publish] at h
    by_cases hcn : cn = ch
    · subst hcn
      cases hl : odLookup cn s.channels with
      | none =>
        rw [readyIds_step_publish_fail hl] at h
        rcases h with h | h
        · exact Or.inl h
        · exact Or.inr (Nat.le_of_succ_le h)
      | some c =>
        rw [readyIds_step_publish_self hwf hl] at h
        rcases h with h | h
        · rcases List.mem_append.mp h with h | h
          · exact Or.inl h
          · simp at h
            exact Or.inr (le_of_eq h.symm)
        · exact Or.inr (Nat.le_of_succ_le h)
    · have hfr : readyIds (step s (.publish cn p)) ch = readyIds s ch :=
        readyIds_eq_of_lookup_eq (odLookup_step_ne (by simp [opChan, hcn]))
      rw [hfr] at h
      rcases h with h | h
      · exact Or.inl h
      · exact Or.inr (Nat.le_of_succ_le h)
  | consume cn =>
    rw [nextId_step_consume] at h
    by_cases hcn : cn = ch
    · subst hcn
      cases hl : odLookup cn s.channels with
      | none =>
        have hre : readyIds s cn = [] := by simp [readyIds, hl]
        obtain ⟨hstep, _⟩ := consume_step_empty hre
        rwa [hstep] at h
      | some c =>
        cases hr : c.ready_messages with
        | nil =>
          have hre : readyIds s cn = [] := by
            simp [readyIds, hl, hr, odKeys]
          obtain ⟨hstep, _⟩ := consume_step_empty hre
          rwa [hstep] at h
        | cons e rq =>
          obtain ⟨mid, m⟩ := e
          obtain ⟨hready, hun, hout⟩ := consume_step_cons hl hr
          rw [hready] at h
          rcases h with h | h
          · refine Or.inl ?_
            have hrs : readyIds s cn = mid :: odKeys rq := by
              simp [readyIds, hl, hr, odKeys_cons]
            rw [hrs]
            exact List.mem_cons_of_mem _ h
          · exact Or.inr h
    · have hfr : readyIds (step s (.consume cn)) ch = readyIds s ch :=
        readyIds_eq_of_lookup_eq (odLookup_step_ne (by simp [opChan, hcn]))
      rwa [hfr] at h
  | ack cn mid =>
    rw [nextId_step_ack, readyIds_step_ack] at h
    exact h
  | purge cn =>
    rw [nextId_step_purge] at h
    by_cases hcn : cn = ch
    · subst hcn
      rw [(purge_step_views (s := s)).1] at h
      rcases h with h | h
      · exact absurd h (List.not_mem_nil i)
      · exact Or.inr h
    · rw [(purge_step_other hcn).1] at h
      exact h
  | stats cno => exact h

/-- Along any trace, the ids consumed from `ch` are pairwise distinct, and
each of them was still in the ready queue at the start of the trace or had
not yet been drawn from the id generator. -/
theorem consumedIds_nodup_aux (ops : List Op) (ch : String) :
    ∀ s : Storage, StorageWF s →
      (consumedIds s ops ch).Nodup
      ∧ ∀ i ∈ consumedIds s ops ch,
          i ∈ readyIds s ch ∨ s.nextId ≤ i := by
  induction ops with
  | nil => intro s _; simp [consumedIds]
  | cons op rest ih =>
    intro s hwf
    obtain ⟨ihn, ihm⟩ := ih (step s op) (step_WF op hwf)
    cases op with
    | register cn =>
      refine ⟨by simpa [consumedIds] using ihn, ?_⟩
      intro i hi
      rw [show consumedIds s (Op.register cn :: rest) ch
          = consumedIds (step s (.register cn)) rest ch from by
            simp [consumedIds]] at hi
      exact consume_transfer hwf (ihm i hi)
    | publish cn p =>
      refine ⟨by simpa [consumedIds] using ihn, ?_⟩
      intro i hi
      rw [show consumedIds s (Op.publish cn p :: rest) ch
          = consumedIds (step s (.publish cn p)) rest ch from by
            simp [consumedIds]] at hi
      exact consume_transfer hwf (ihm i hi)
    | consume cn =>
      by_cases hcn : cn = ch
      · subst hcn
        cases hl : odLookup cn s.channels with
        | none =>
          have hre : readyIds s cn = [] := by simp [readyIds, hl]
          obtain ⟨hstep, hout⟩ := consume_step_empty hre
          have hsame : consumedIds s (Op.consume cn :: rest) cn
              = consumedIds (step s (.consume cn)) rest cn := by
            simp [consumedIds, hout]
          refine ⟨by rw [hsame]; exact ihn, ?_⟩
          intro i hi
          rw [hsame] at hi
          exact consume_transfer hwf (ihm i hi)
        | some c =>
          cases hr : c.ready_messages with
          | nil =>
            have hre : readyIds s cn = [] := by
              simp [readyIds, hl, hr, odKeys]
            obtain ⟨hstep, hout⟩ := consume_step_empty hre
            have hsame : consumedIds s (Op.consume cn :: rest) cn
                = consumedIds (step s (.consume cn)) rest cn := by
              simp [consumedIds, hout]
            refine ⟨by rw [hsame]; exact ihn, ?_⟩
            intro i hi
            rw [hsame] at hi
            exact consume_transfer hwf (ihm i hi)
          | cons e rq =>
            obtain ⟨mid, m⟩ := e
            obtain ⟨hready, hun, hout⟩ := consume_step_cons hl hr
            have hcwf := hwf.2 (cn, c) (entry_mem_of_lookup hl)
            have hmid : mid = m.id ∧ mid < s.nextId :=
              hcwf.2.2.1 (mid, m) (by rw [hr]; exact List.mem_cons_self _ _)
            have hnods : (mid :: odKeys rq).Nodup := by
              have := hcwf.1
              rwa [hr, odKeys_cons] at this
            have hrs : readyIds s cn = mid :: odKeys rq := by
              simp [readyIds, hl, hr, odKeys_cons]
            have hsame : consumedIds s (Op.consume cn :: rest) cn
                = m.id :: consumedIds (step s (.consume cn)) rest cn := by
              simp [consumedIds, hout]
            rw [hsame]
            constructor
            · rw [List.nodup_cons]
              refine ⟨?_, ihn⟩
              intro hmem
              rcases ihm m.id hmem with h | h
              · rw [hready] at h
                rw [List.nodup_cons] at hnods
                exact hnods.1 (hmid.1 ▸ h)
              · rw [nextId_step_consume] at h
                exact absurd (hmid.1 ▸ h) (Nat.not_le_of_lt hmid.2)
            · intro i hi
              rcases List.mem_cons.mp hi with hi | hi
              · subst hi
                exact Or.inl (by rw [hrs, hmid.1]; exact List.mem_cons_self _ _)
              · exact consume_transfer hwf (ihm i hi)
      · have hsame : consumedIds s (Op.consume cn :: rest) ch
            = consumedIds (step s (.consume cn)) rest ch := by
          simp [consumedIds, hcn]
        refine ⟨by rw [hsame]; exact ihn, ?_⟩
        intro i hi
        rw [hsame] at hi
        exact consume_transfer hwf (ihm i hi)
    | ack cn mid =>
      refine ⟨by simpa [consumedIds] using ihn, ?_⟩
      intro i hi
      rw [show consumedIds s (Op.ack cn mid :: rest) ch
          = consumedIds (step s (.ack cn mid)) rest ch from by
            simp [consumedIds]] at hi
      exact consume_transfer hwf (ihm i hi)
    | purge cn =>
      refine ⟨by simpa [consumedIds] using ihn, ?_⟩
      intro i hi
      rw [show consumedIds s (Op.purge cn :: rest) ch
          = consumedIds (step s (.purge cn)) rest ch from by
            simp [consumedIds]] at hi
      exact consume_transfer hwf (ihm i hi)
    | stats cno =>
      refine ⟨by simpa [consumedIds] using ihn, ?_⟩
      intro i hi
      rw [show consumedIds s (Op.stats cno :: rest) ch
          = consumedIds (step s (.stats cno)) rest ch from by
            simp [consumedIds]] at hi
      exact consume_transfer hwf (ihm i hi)

/-- Claim C8: along every trace of engine operations from start-up, the
ids returned by the successful consumes on a channel are pairwise
distinct — a message id returned once by `Consume` is never returned
again by any later `Consume` on that channel. -/
theorem C8_consume_at_most_once (ops : List Op) (ch : String) :
    (consumedIds initialStorage ops ch).Nodup :=
  (consumedIds_nodup_aux ops ch initialStorage initialStorage_WF).1

/-- An alive id survives any operation other than an acknowledge of that
very id on its channel or a purge of its channel. -/
theorem alive_preserved {s : Storage} {ch : String} {mid : Nat} {op : Op}
    (hwf : StorageWF s) (halive : aliveIn s ch mid)
    (hpu : op ≠ .purge ch) (hak : op ≠ .ack ch mid) :
    aliveIn (step s op) ch mid := by
  cases op with
  | register cn =>
    unfold aliveIn at halive ⊢
    rw [readyIds_step_register, unackedIds_step_register]
    exact halive
  | publish cn p =>
    rcases halive with h | h
    · by_cases hcn : cn = ch
      · subst hcn
        cases hl : odLookup cn s.channels with
        | none =>
          exact Or.inl (by rwa [readyIds_step_publish_fail hl])
        | some c =>
          refine Or.inl ?_
          rw [readyIds_step_publish_self hwf hl]
          exact List.mem_append_left _ h
      · have hfr : readyIds (step s (.publish cn p)) ch = readyIds s ch :=
          readyIds_eq_of_lookup_eq (odLookup_step_ne (by simp [opChan, hcn]))
        exact Or.inl (by rwa [hfr])
    · exact Or.inr (by rwa [unackedIds_step_publish])
  | consume cn =>
    by_cases hcn : cn = ch
    · subst hcn
      cases hl : odLookup cn s.channels with
      | none =>
        have hre : readyIds s cn = [] := by simp [readyIds, hl]
        obtain ⟨hstep, _⟩ := consume_step_empty hre
        rwa [hstep]
      | some c =>
        cases hr : c.ready_messages with
        | nil =>
          have hre : readyIds s cn = [] := by
            simp [readyIds, hl, hr, odKeys]
          obtain ⟨hstep, _⟩ := consume_step_empty hre
          rwa [hstep]
        | cons e rq =>
          obtain ⟨mid0, m⟩ := e
          obtain ⟨hready, hun, hout⟩ := consume_step_cons hl hr
          have hmid0 : mid0 = m.id :=
            ((hwf.2 (cn, c) (entry_mem_of_lookup hl)).2.2.1 (mid0, m)
              (by rw [hr]; exact List.mem_cons_self _ _)).1
          rcases halive with h | h
          · have hrs : readyIds s cn = mid0 :: odKeys rq := by
              simp [readyIds, hl, hr, odKeys_cons]
            rw [hrs] at h
            rcases List.mem_cons.mp h with h | h
            · subst h
              refine Or.inr ?_
              rw [hun, hmid0]
              exact mem_odKeys_odInsert_self
            · exact Or.inl (by rw [hready]; exact h)
          · refine Or.inr ?_
            rw [hun]
            have hmem : mid ∈ odKeys c.unacked_messages := by
              rw [unackedIds, hl] at h
              exact h
            exact mem_odKeys_odInsert_of_mem hmem
    · have hfr : readyIds (step s (.consume cn)) ch = readyIds s ch :=
        readyIds_eq_of_lookup_eq (odLookup_step_ne (by simp [opChan, hcn]))
      have hfu : unackedIds (step s (.consume cn)) ch = unackedIds s ch :=
        unackedIds_eq_of_lookup_eq (odLookup_step_ne (by simp [opChan, hcn]))
      unfold aliveIn at halive ⊢
      rw [hfr, hfu]
      exact halive
  | ack cn mid' =>
    by_cases hcn : cn = ch
    · subst hcn
      have hne : mid ≠ mid' := by
        intro hh
        exact hak (by rw [hh])
      rcases halive with h | h
      · exact Or.inl (by rwa [readyIds_step_ack])
      · refine Or.inr ?_
        cases hl : odLookup cn s.channels with
        | none =>
          have hstep : step s (.ack cn mid') = s := by
            simp [step, confirm_message, hl]
          rwa [hstep]
        | some c =>
          cases hp' : (odPop mid' c.unacked_messages).1 with
          | none =>
            have hstep : step s (.ack cn mid') = s := by
              simp [step, confirm_message, hl, hp']
            rwa [hstep]
          | some m =>
            have hstep : step s (.ack cn mid')
                = { s with
                    channels :=
                      odInsert cn
                        { c with
                          unacked_messages :=
                            (odPop mid' c.unacked_messages).2 }
                        s.channels } := by
              simp [step, confirm_message, hl, hp']
            have hunx : unackedIds (step s (.ack cn mid')) cn
                = odKeys (odPop mid' c.unacked_messages).2 := by
              simp [hstep, unackedIds, odLookup_odInsert_self]
            rw [hunx]
            have hmem : mid ∈ odKeys c.unacked_messages := by
              rw [unackedIds, hl] at h
              exact h
            exact mem_odKeys_odPop_of_ne hne hmem
    · have hfr : readyIds (step s (.ack cn mid')) ch = readyIds s ch :=
        readyIds_eq_of_lookup_eq (odLookup_step_ne (by simp [opChan, hcn]))
      have hfu : unackedIds (step s (.ack cn mid')) ch = unackedIds s ch :=
        unackedIds_eq_of_lookup_eq (odLookup_step_ne (by simp [opChan, hcn]))
      unfold aliveIn at halive ⊢
      rw [hfr, hfu]
      exact halive
  | purge cn =>
    have hcn : cn ≠ ch := by
      intro hh
      exact hpu (by rw [hh])
    obtain ⟨h1, h2⟩ := purge_step_other hcn
    unfold aliveIn at halive ⊢
    rw [h1, h2]
    exact halive
  | stats cno => exact halive

/-- A successful publish makes the freshly issued id alive (it enters the
ready queue). -/
theorem publish_makes_alive {s : Storage} {ch : String} {p : Payload}
    (hwf : StorageWF s) (hc : odContains ch s.channels = true) :
    aliveIn (step s (.publish ch p)) ch s.nextId := by
  obtain ⟨c, hl⟩ := odLookup_isSome_of_mem (odContains_iff.mp hc)
  refine Or.inl ?_
  rw [readyIds_step_publish_self hwf hl]
  exact List.mem_append_right _ (by simp)

/-- Claim C2: in every reachable state a channel's ready keys and unacked
keys are disjoint and duplicate-free — an alive id sits in exactly one of
the two structures, never both; it stays alive (never neither) across
every operation except an acknowledge of that very id or a purge of its
channel; and a publish to a registered channel makes the freshly issued id
alive. -/
theorem C2_alive_exactly_one (ops : List Op) (ch : String) (mid : Nat)
    (op : Op) (p : Payload) :
    (mid ∈ readyIds (run ops) ch → mid ∉ unackedIds (run ops) ch)
    ∧ ((readyIds (run ops) ch).Nodup ∧ (unackedIds (run ops) ch).Nodup)
    ∧ (aliveIn (run ops) ch mid → op ≠ .purge ch → op ≠ .ack ch mid →
        aliveIn (step (run ops) op) ch mid)
    ∧ (odContains ch (run ops).channels = true →
        aliveIn (step (run ops) (.publish ch p)) ch (run ops).nextId) := by
  have hwf := run_WF ops
  refine ⟨?_, ?_, ?_, ?_⟩
  · intro hmem
    cases hl : odLookup ch (run ops).channels with
    | none => simp [readyIds, hl] at hmem
    | some c =>
      have hcwf := hwf.2 (ch, c) (entry_mem_of_lookup hl)
      rw [readyIds, hl] at hmem
      rw [unackedIds, hl]
      exact hcwf.2.2.2.2 mid hmem
  · cases hl : odLookup ch (run ops).channels with
    | none => constructor <;> simp [readyIds, unackedIds, hl]
    | some c =>
      have hcwf := hwf.2 (ch, c) (entry_mem_of_lookup hl)
      constructor
      · rw [readyIds, hl]; exact hcwf.1
      · rw [unackedIds, hl]; exact hcwf.2.1
  · intro halive hpu hak
    exact alive_preserved hwf halive hpu hak
  · intro hc
    exact publish_makes_alive hwf hc

/-- Concrete run of `C2_alive_exactly_one`: after two publishes and one
consume on `"a"`, id 1 is ready (hence not unacked), survives a stats
step, and a further publish brings the next id alive. -/
theorem C2_alive_exactly_one_witness :
    ((1 : Nat)
        ∉ unackedIds
            (run [Op.register "a", Op.publish "a" [("x", "1")],
              Op.publish "a" [("x", "2")], Op.consume "a"]) "a")
    ∧ aliveIn
        (step
          (run [Op.register "a", Op.publish "a" [("x", "1")],
            Op.publish "a" [("x", "2")], Op.consume "a"])
          (Op.stats none)) "a" 1
    ∧ aliveIn
        (step
          (run [Op.register "a", Op.publish "a" [("x", "1")],
            Op.publish "a" [("x", "2")], Op.consume "a"])
          (Op.publish "a" [])) "a"
        (run [Op.register "a", Op.publish "a" [("x", "1")],
          Op.publish "a" [("x", "2")], Op.consume "a"]).nextId := by
  have h := C2_alive_exactly_one
    [Op.register "a", Op.publish "a" [("x", "1")],
      Op.publish "a" [("x", "2")], Op.consume "a"] "a" 1 (Op.stats none) []
  exact ⟨h.1 (by decide), h.2.2.1 (by decide) (by decide) (by decide),
    h.2.2.2 (by decide)⟩

theorem runFrom_append (s : Storage) (l₁ l₂ : List Op) :
    runFrom s (l₁ ++ l₂) = runFrom (runFrom s l₁) l₂ := by
  simp [runFrom, List.foldl_append]

theorem pubEntries_length (ps : List Payload) :
    ∀ n, (pubEntries n ps).length = ps.length := by
  induction ps with
  | nil => intro n; rfl
  | cons p ps ih => intro n; simp [pubEntries, ih]

theorem pubEntries_key_ge (ps : List Payload) :
    ∀ n, ∀ e ∈ pubEntries n ps, n ≤ e.1 := by
  induction ps with
  | nil => intro n e he; simp [pubEntries] at he
  | cons p ps ih =>
    intro n e he
    rcases List.mem_cons.mp he with h | h
    · subst h; exact le_refl n
    · exact le_trans (Nat.le_succ n) (ih (n + 1) e h)

theorem pubEntries_key_id (ps : List Payload) :
    ∀ n, ∀ e ∈ pubEntries n ps, e.1 = e.2.id := by
  induction ps with
  | nil => intro n e he; simp [pubEntries] at he
  | cons p ps ih =>
    intro n e he
    rcases List.mem_cons.mp he with h | h
    · subst h; rfl
    · exact ih (n + 1) e h

theorem pubEntries_keys_nodup (ps : List Payload) :
    ∀ n, (odKeys (pubEntries n ps)).Nodup := by
  induction ps with
  | nil => intro n; simp [pubEntries, odKeys]
  | cons p ps ih =>
    intro n
    rw [pubEntries, odKeys_cons, List.nodup_cons]
    refine ⟨?_, ih (n + 1)⟩
    intro hm
    obtain ⟨v, hv⟩ := odLookup_isSome_of_mem hm
    have := pubEntries_key_ge ps (n + 1) (n, v) (entry_mem_of_lookup hv)
    omega

/-- Running the publishes of `ps` on a single-channel storage appends
their entries to the ready queue and advances the id counter. -/
theorem runFrom_publishes (ch : String) (ps : List Payload) :
    ∀ (R U : List (Nat × Message)) (n : Nat),
      (∀ e ∈ R, e.1 < n) →
      runFrom (oneChannel ch R U n) (ps.map (Op.publish ch))
        = oneChannel ch (R ++ pubEntries n ps) U (n + ps.length) := by
  induction ps with
  | nil => intro R U n _; simp [runFrom, pubEntries, oneChannel]
  | cons p ps ih =>
    intro R U n hb
    rw [List.map_cons, runFrom_cons]
    have hnotin : n ∉ odKeys R := by
      intro hm
      obtain ⟨v, hv⟩ := odLookup_isSome_of_mem hm
      exact lt_irrefl n (hb _ (entry_mem_of_lookup hv))
    have hl : odLookup ch (oneChannel ch R U n).channels
        = some ⟨ch, R, U⟩ := by
      simp [oneChannel, odLookup]
    have hstep : step (oneChannel ch R U n) (.publish ch p)
        = oneChannel ch (R ++ [(n, ⟨n, p⟩)]) U (n + 1) := by
      simp [step, freshMessage, put_message, oneChannel, odLookup, odInsert,
        odInsert_of_not_mem hnotin]
    have hb' : ∀ e ∈ R ++ [(n, (⟨n, p⟩ : Message))], e.1 < n + 1 := by
      intro e he
      rcases List.mem_append.mp he with h | h
      · exact lt_trans (hb e h) (Nat.lt_succ_self n)
      · simp at h
        subst h
        exact Nat.lt_succ_self n
    rw [hstep, ih (R ++ [(n, (⟨n, p⟩ : Message))]) U (n + 1) hb']
    simp [oneChannel, pubEntries, List.append_assoc]
    omega

/-- Running `k` consumes on a single-channel storage drops the first `k`
ready entries and grows the unacked set by `k` entries. -/
theorem runFrom_consumes (ch : String) (k : Nat) :
    ∀ (R U : List (Nat × Message)) (n : Nat),
      k ≤ R.length →
      (odKeys R).Nodup →
      (∀ e ∈ R, e.1 = e.2.id) →
      (∀ i ∈ odKeys R, i ∉ odKeys U) →
      ∃ U' : List (Nat × Message),
        runFrom (oneChannel ch R U n) (List.replicate k (Op.consume ch))
          = oneChannel ch (R.drop k) U' n
        ∧ U'.length = U.length + k := by
  induction k with
  | zero =>
    intro R U n _ _ _ _
    exact ⟨U, by simp [runFrom], by simp⟩
  | succ k ih =>
    intro R U n hk hnd hid hdisj
    cases R with
    | nil => simp at hk
    | cons e R' =>
      obtain ⟨mid, m⟩ := e
      have hl : odLookup ch (oneChannel ch ((mid, m) :: R') U n).channels
          = some ⟨ch, (mid, m) :: R', U⟩ := by
        simp [oneChannel, odLookup]
      have hmid : mid = m.id := hid (mid, m) (List.mem_cons_self _ _)
      have hmidU : m.id ∉ odKeys U := by
        have := hdisj mid (by rw [odKeys_cons]; exact List.mem_cons_self _ _)
        rwa [hmid] at this
      have hstep : step (oneChannel ch ((mid, m) :: R') U n) (.consume ch)
          = oneChannel ch R' (U ++ [(m.id, m)]) n := by
        simp [step, get_message, oneChannel, odLookup, odInsert,
          odInsert_of_not_mem hmidU]
      rw [odKeys_cons, List.nodup_cons] at hnd
      have hdisj' : ∀ i ∈ odKeys R', i ∉ odKeys (U ++ [(m.id, m)]) := by
        intro i hi
        rw [odKeys_append]
        intro hmem
        rcases List.mem_append.mp hmem with h | h
        · exact hdisj i (by rw [odKeys_cons]; exact List.mem_cons_of_mem _ hi) h
        · simp [odKeys] at h
          subst h
          exact hnd.1 (hmid ▸ hi)
      obtain ⟨U', hrun, hlen⟩ := ih R' (U ++ [(m.id, m)]) n
        (by simpa using Nat.le_of_succ_le_succ hk) hnd.2
        (fun e he => hid e (List.mem_cons_of_mem _ he)) hdisj'
      refine ⟨U', ?_, ?_⟩
      · rw [List.replicate_succ, runFrom_cons, hstep, hrun]
        simp
      · rw [hlen]
        simp
        omega

/-- Claim C5 counterexample: the channel named `""` is registrable, but
after publishing one message and consuming it, single-channel stats on
`""` reports nothing (the truthiness guard drops the falsy empty name)
instead of the promised `ready = 0, unacked = 1, total = 1` triple. -/
theorem C5_counterexample :
    odContains ""
        (run [Op.register "", Op.publish "" [("j", "1")],
          Op.consume ""]).channels
      = true
    ∧ ¬ odLookup ""
          (get_stats
            (run [Op.register "", Op.publish "" [("j", "1")],
              Op.consume ""])
            (some ""))
        = some ⟨0, 1, 1⟩ := by decide

/-- Claim C5 (amended to channels with a non-empty name): after
registering `ch`, publishing the payloads `ps` (N = `ps.length`) and
consuming `k ≤ N` of them without acknowledging, single-channel stats
reports `ready = N - k`, `unacked = k`, `total = N`. -/
theorem C5_stats_counts (ch : String) (ps : List Payload) (k : Nat)
    (hk : k ≤ ps.length) (hch : ch ≠ "") :
    odLookup ch
      (get_stats
        (run (Op.register ch
          :: (ps.map (Op.publish ch) ++ List.replicate k (Op.consume ch))))
        (some ch))
      = some ⟨ps.length - k, k, ps.length⟩ := by
  have hreg : step initialStorage (.register ch) = oneChannel ch [] [] 0 := by
    simp [step, register_channel, initialStorage, odContains, odKeys,
      odInsert, oneChannel]
  have hpubs := runFrom_publishes ch ps [] [] 0 (by simp)
  have hlen : k ≤ (pubEntries 0 ps).length := by
    rw [pubEntries_length]; exact hk
  obtain ⟨U', hrun, hUlen⟩ := runFrom_consumes ch k (pubEntries 0 ps) [] ps.length
    hlen (pubEntries_keys_nodup ps 0) (pubEntries_key_id ps 0)
    (by simp [odKeys])
  have hstate : run (Op.register ch
        :: (ps.map (Op.publish ch) ++ List.replicate k (Op.consume ch)))
      = oneChannel ch ((pubEntries 0 ps).drop k) U' ps.length := by
    rw [run, runFrom_cons, hreg, runFrom_append, hpubs]
    simpa using hrun
  rw [hstate]
  have hcont : odContains ch
      (oneChannel ch ((pubEntries 0 ps).drop k) U' ps.length).channels
      = true := by
    simp [oneChannel, odContains, odKeys]
  have hlk : odLookup ch
      (oneChannel ch ((pubEntries 0 ps).drop k) U' ps.length).channels
      = some ⟨ch, (pubEntries 0 ps).drop k, U'⟩ := by
    simp [oneChannel, odLookup]
  have hdrop : ((pubEntries 0 ps).drop k).length = ps.length - k := by
    rw [List.length_drop, pubEntries_length]
  simp only [get_stats, hch, hcont, hlk, statsOf, ne_eq,
    not_false_iff, true_and, if_true, hdrop, hUlen]
  simp [odLookup, hdrop, hUlen, Nat.sub_add_cancel hk]

/-- Concrete run of `C5_stats_counts`: two publishes, one consume on
`"a"`. -/
theorem C5_stats_counts_witness :
    odLookup "a"
      (get_stats
        (run (Op.register "a"
          :: (([[("u", "1")], [("u", "2")]] : List Payload).map
                (Op.publish "a")
              ++ List.replicate 1 (Op.consume "a"))))
        (some "a"))
      = some ⟨1, 1, 2⟩ :=
  C5_stats_counts "a" [[("u", "1")], [("u", "2")]] 1 (by decide) (by decide)

end EBroker
